import Mathlib

/-!
Verification of the apollo-configuration library (shallow embedding).

The source is a small JavaScript library:
* `src/lib/Configuration.js` — key-path navigation (`set`, `has`, `get`,
  `remove`) over one settings tree, plus `merge`;
* `src/lib/mergeObjects.js` — the deep tree merger with an array strategy;
* `src/lib/MergeStrategy.js` — the two-element strategy enumeration;
* `src/lib/ConfigurationBuilder.js` — the fold of loaded sources.

JavaScript values are modelled by the inductive type `Value` below.  The
model follows the semantics of the constructs the source actually uses,
in particular:
* `typeof null` and `typeof` of an array are both `"object"`, so the
  navigation code descends into `null` and into arrays;
* reading or writing a property of `null`, and the `in` operator with a
  `null` right-hand side, throw a `TypeError` (the code runs in strict
  mode, as ES modules do).  A thrown exception is modelled as `none`;
* array elements are addressed by canonical numeric strings, and arrays
  expose a `length` property;
* string-keyed expando properties on arrays, prototype-inherited keys and
  exotic values (functions, symbols, ...) fall outside the settings-tree
  data model of this library (mappings, sequences and scalars only) and
  are not represented.
-/

namespace Apollo

/-- A JavaScript value as used by the library: `undefined`, `null`,
booleans, numbers (the test data uses only integers), strings, arrays
and plain objects.  Objects are insertion-ordered association lists,
faithful to JS string-keyed property order for the keys this library
manipulates.  A deleted array element (a hole) is represented by
`vUndefined`; `key in arr` is false for holes, as in JS. -/
inductive Value where
  | vUndefined : Value
  | vNull : Value
  | vBool : Bool → Value
  | vNum : Int → Value
  | vStr : String → Value
  | vArr : List Value → Value
  | vObj : List (String × Value) → Value

/-- `MergeStrategy` from `src/lib/MergeStrategy.js`: a closed two-element
enumeration. -/
inductive MergeStrategy where
  | MERGE_INDEXED : MergeStrategy
  | REPLACE_INDEXED : MergeStrategy
deriving DecidableEq

namespace Value

/-- First-occurrence lookup in an object's field list (JS own-property
read; JS objects cannot actually hold a duplicate key). -/
def getField : List (String × Value) → String → Option Value
  | [], _ => none
  | (k', v) :: rest, k => if k' = k then some v else getField rest k

/-- JS property assignment on an object: replace the value of an existing
key in place (its position is kept), otherwise append the new key at the
end, matching JS insertion order for string keys. -/
def setField : List (String × Value) → String → Value → List (String × Value)
  | [], k, x => [(k, x)]
  | (k', v) :: rest, k, x =>
    if k' = k then (k, x) :: rest else (k', v) :: setField rest k x

/-- `delete obj[k]`: remove the key from the field list. -/
def delField : List (String × Value) → String → List (String × Value)
  | [], _ => []
  | (k', v) :: rest, k =>
    if k' = k then delField rest k else (k', v) :: delField rest k

/-- A canonical JS array index: a string of digits with no leading zero
(except `"0"` itself), below `2^32 - 1`.  Only such strings address array
elements; `"00"`, `"-1"` or `" 1"` are ordinary property keys. -/
def toArrayIndex (s : String) : Option Nat :=
  if s.data ≠ [] ∧ s.data.all (fun c => c.isDigit)
      ∧ (s.data = ['0'] ∨ s.data.headD '0' ≠ '0') then
    let n := s.data.foldl (fun acc c => acc * 10 + (c.toNat - '0'.toNat)) 0
    if n < 2 ^ 32 - 1 then some n else none
  else none

/-- `typeof v === "object"`: true for `null`, arrays and plain objects. -/
def typeofIsObject : Value → Bool
  | .vNull => true
  | .vArr _ => true
  | .vObj _ => true
  | _ => false

/-- `Object.prototype.toString.call(value) === "[object Object]"`
(`isObject` in `src/lib/mergeObjects.js`): true exactly for plain
objects — not for arrays and not for `null`. -/
def isObject : Value → Bool
  | .vObj _ => true
  | _ => false

/-- `Array.isArray`. -/
def isArrayB : Value → Bool
  | .vArr _ => true
  | _ => false

def isUndefB : Value → Bool
  | .vUndefined => true
  | _ => false

/-- A primitive (non-array, non-object) value.  On primitives, JS `Set`
membership (SameValueZero) coincides with structural equality; two
structurally equal arrays or objects are distinct references in the
plain-data trees this library manipulates. -/
def isPrimitiveB : Value → Bool
  | .vArr _ => false
  | .vObj _ => false
  | _ => true

/-- Array element / property read, `arr[k]`, for the properties arrays
have in the settings-tree data model: canonical indices and `length`.
Out-of-range reads give `undefined`. -/
def readArr (xs : List Value) (k : String) : Value :=
  match toArrayIndex k with
  | some i => xs.getD i .vUndefined
  | none => if k = "length" then .vNum (xs.length : Int) else .vUndefined

/-- `k in arr`: true for an in-range, non-hole canonical index and for
`length`. -/
def inOpArr (xs : List Value) (k : String) : Bool :=
  match toArrayIndex k with
  | some i => !(xs.getD i .vUndefined).isUndefB
  | none => k = "length"

/-- A character of a string read as `s[k]` (strings expose `length` and
indexed characters). -/
def readStr (s : String) (k : String) : Value :=
  match toArrayIndex k with
  | some i =>
    match s.data[i]? with
    | some c => .vStr (String.mk [c])
    | none => .vUndefined
  | none => if k = "length" then .vNum (s.length : Int) else .vUndefined

/-- `v[k]` as an expression: `none` models a thrown `TypeError` (reading
a property of `null` or `undefined`); otherwise the read value, with
`undefined` for an absent key. -/
def propRead : Value → String → Option Value
  | .vNull, _ => none
  | .vUndefined, _ => none
  | .vObj f, k => some ((getField f k).getD .vUndefined)
  | .vArr xs, k => some (readArr xs k)
  | .vStr s, k => some (readStr s k)
  | .vBool _, _ => some .vUndefined
  | .vNum _, _ => some .vUndefined

/-- Write an array element at a canonical index: in range replaces the
element; past the end pads with holes (as JS does) and appends. -/
def listWriteAt (xs : List Value) (i : Nat) (x : Value) : List Value :=
  if i < xs.length then xs.set i x
  else xs ++ List.replicate (i - xs.length) .vUndefined ++ [x]

/-- Resize an array to length `n`, truncating or padding with holes
(assignment to `length`). -/
def resizeTo (xs : List Value) (n : Nat) : List Value :=
  if n ≤ xs.length then xs.take n
  else xs ++ List.replicate (n - xs.length) .vUndefined

/-- `v[k] = x` in strict mode: `none` models a thrown exception
(`TypeError` on `null`/`undefined`/primitives, `RangeError` on an invalid
array length).  A non-index, non-length key written to an array would
create an expando property, which is outside the settings-tree data
model; the write is dropped (no verified claim exercises it). -/
def propWrite : Value → String → Value → Option Value
  | .vObj f, k, x => some (.vObj (setField f k x))
  | .vArr xs, k, x =>
    match toArrayIndex k with
    | some i => some (.vArr (listWriteAt xs i x))
    | none =>
      if k = "length" then
        match x with
        | .vNum n => if 0 ≤ n then some (.vArr (resizeTo xs n.toNat)) else none
        | _ => none
      else some (.vArr xs)
  | _, _, _ => none

/-- `delete v[k]` in strict mode: removes an object key (no-op when
absent); leaves a hole in an array; throws (`none`) on `null`/`undefined`,
on `length`, and on a string's non-configurable indexed properties;
otherwise a no-op. -/
def delProp : Value → String → Option Value
  | .vNull, _ => none
  | .vUndefined, _ => none
  | .vObj f, k => some (.vObj (delField f k))
  | .vArr xs, k =>
    match toArrayIndex k with
    | some i => some (.vArr (if i < xs.length then xs.set i .vUndefined else xs))
    | none => if k = "length" then none else some (.vArr xs)
  | .vStr s, k =>
    if k = "length" then none
    else
      match toArrayIndex k with
      | some i => if i < s.length then none else some (.vStr s)
      | none => some (.vStr s)
  | .vBool b, _ => some (.vBool b)
  | .vNum n, _ => some (.vNum n)

end Value

namespace Configuration

open Value

/-!
`Configuration` owns one settings tree (`this.settings`).  Each key-path
operation splits the path on `"."` and walks the tree.  The walks below are
the explicit-state-passing translation of the in-place loops of
`src/lib/Configuration.js`; `none` models a thrown exception.  A split
never returns `[]`, so the `[]` cases of `setSegs`/`removeSegs` are
unreachable from the public API.
-/

/-- `keyPath.split(".")` — JS `String.prototype.split` with a one-char
separator: cut at every `"."`; an empty string yields `[""]`, consecutive
or trailing separators yield empty segments.  (Spelled out over the
character list so that it evaluates inside the kernel.) -/
def splitAux : List Char → List Char → List String
  | [], acc => [String.mk acc.reverse]
  | c :: cs, acc =>
    if c = '.' then String.mk acc.reverse :: splitAux cs []
    else splitAux cs (c :: acc)

def splitDots (s : String) : List String := splitAux s.data []

/-- The loop of `Configuration.has`:
`while` there are segments: return `false` if
`typeof intermediate !== "object"` or the segment is not `in` the
intermediate, else descend.  With `intermediate === null` the `typeof`
guard passes and the `in` operator throws (`none`). -/
def hasSegs : Value → List String → Option Bool
  | _, [] => some true
  | .vNull, _ :: _ => none
  | .vObj f, k :: ks =>
    if (getField f k).isSome then hasSegs ((getField f k).getD .vUndefined) ks
    else some false
  | .vArr xs, k :: ks =>
    if inOpArr xs k then hasSegs (readArr xs k) ks else some false
  | _, _ :: _ => some false

/-- The loop of `Configuration.get`: the same walk as `has`, returning the
resolved value, or the default as soon as the walk breaks. -/
def getSegs : Value → List String → Value → Option Value
  | v, [], _ => some v
  | .vNull, _ :: _, _ => none
  | .vObj f, k :: ks, d =>
    if (getField f k).isSome then getSegs ((getField f k).getD .vUndefined) ks d
    else some d
  | .vArr xs, k :: ks, d =>
    if inOpArr xs k then getSegs (readArr xs k) ks d else some d
  | _, _ :: _, d => some d

/-- The loop of `Configuration.set`: for every segment but the last, if
`typeof intermediate[key] !== "object"` the slot is overwritten with a
fresh `{}` (note: `null` and arrays pass the `typeof` test and are
descended into, `null` making the next access throw); the final segment
is assigned.  In-place mutation becomes a write-back of the updated
subtree. -/
def setSegs : Value → List String → Value → Option Value
  | _, [], _ => none
  | v, [k], x => propWrite v k x
  | v, k :: k2 :: ks, x =>
    match propRead v k with
    | none => none
    | some cur =>
      if cur.typeofIsObject then
        match setSegs cur (k2 :: ks) x with
        | none => none
        | some cur' => propWrite v k cur'
      else
        match setSegs (.vObj []) (k2 :: ks) x with
        | none => none
        | some cur' => propWrite v k cur'

/-- The loop of `Configuration.remove`: for every segment but the last,
return unchanged (silent no-op) if `typeof intermediate[key] !== "object"`,
else descend; finally `delete` the last segment's key. -/
def removeSegs : Value → List String → Option Value
  | _, [] => none
  | v, [k] => delProp v k
  | v, k :: k2 :: ks =>
    match propRead v k with
    | none => none
    | some cur =>
      if cur.typeofIsObject then
        match removeSegs cur (k2 :: ks) with
        | none => none
        | some cur' => propWrite v k cur'
      else some v

/-- `Configuration.has(keyPath)`. -/
def has (settings : Value) (keyPath : String) : Option Bool :=
  hasSegs settings (splitDots keyPath)

/-- `Configuration.get(keyPath, defaultValue = null)`. -/
def get (settings : Value) (keyPath : String) (defaultValue : Value := .vNull) :
    Option Value :=
  getSegs settings (splitDots keyPath) defaultValue

/-- `Configuration.set(keyPath, value)`, returning the updated tree. -/
def set (settings : Value) (keyPath : String) (value : Value) : Option Value :=
  setSegs settings (splitDots keyPath) value

/-- `Configuration.remove(keyPath)`, returning the updated tree. -/
def remove (settings : Value) (keyPath : String) : Option Value :=
  removeSegs settings (splitDots keyPath)

/-- The traversed locations of a `set` walk are "safe": the root and
every existing mapping on the way is a plain object, and every non-final
slot that is not a mapping is absent or a non-`null`, non-array scalar
(so the walk overwrites it with `{}` rather than descending into `null`
or into an array). -/
def setSafe : Value → List String → Bool
  | _, [] => false
  | .vObj _, [_] => true
  | _, [_] => false
  | .vObj f, k :: k2 :: ks =>
    match (getField f k).getD .vUndefined with
    | .vObj g => setSafe (.vObj g) (k2 :: ks)
    | .vNull => false
    | .vArr _ => false
    | _ => setSafe (.vObj []) (k2 :: ks)
  | _, _ :: _ :: _ => false

/-- No strictly-shorter prefix of the walk lands on `null` while segments
remain (the one situation in which the shared `has`/`get` walk throws). -/
def nullFreeOnPath : Value → List String → Bool
  | _, [] => true
  | .vNull, _ :: _ => false
  | .vObj f, k :: ks =>
    if (getField f k).isSome then nullFreeOnPath ((getField f k).getD .vUndefined) ks
    else true
  | .vArr xs, k :: ks =>
    if inOpArr xs k then nullFreeOnPath (readArr xs k) ks else true
  | _, _ :: _ => true

/-- The `remove` walk breaks off early: some non-final slot fails the
`typeof intermediate[key] === "object"` guard, which makes `remove`
return with no mutation. -/
def removeBroken : Value → List String → Bool
  | _, [] => false
  | _, [_] => false
  | v, k :: k2 :: ks =>
    match propRead v k with
    | none => false
    | some cur =>
      if cur.typeofIsObject then removeBroken cur (k2 :: ks) else true

end Configuration

namespace Value

/-- One step of `Array.from(new Set([...a, ...b]))`: JS `Set` membership
is SameValueZero, which on the primitives occurring in settings trees is
structural equality; two composite values (arrays/objects) coming from
plain-data trees are distinct references and never collide. -/
def svzEq : Value → Value → Bool
  | .vUndefined, .vUndefined => true
  | .vNull, .vNull => true
  | .vBool a, .vBool b => a == b
  | .vNum a, .vNum b => a == b
  | .vStr a, .vStr b => a == b
  | _, _ => true = false

/-- Iteration order of a JS `Set`: keep the first occurrence of each
element, skipping later SameValueZero duplicates; `seen` holds the
elements already emitted. -/
def setDedupAux (seen : List Value) : List Value → List Value
  | [] => []
  | x :: xs =>
    if seen.any (fun w => svzEq w x) then setDedupAux seen xs
    else x :: setDedupAux (seen ++ [x]) xs

/-- `Array.from(new Set(l))`. -/
def setDedup (l : List Value) : List Value := setDedupAux [] l

/-- `Array.from(new Set([...a, ...b]))` for the two colliding arrays of
the MERGE_INDEXED branch. -/
def arrayUnion : Value → Value → Value
  | .vArr xs, .vArr ys => .vArr (setDedup (xs ++ ys))
  | a, _ => a

/-- Field list of a plain object; `[]` on anything else (the recursive
`mergeObjects` call only ever receives plain objects, both its arguments
being guarded by `isObject`). -/
def objFieldsD : Value → List (String × Value)
  | .vObj f => f
  | _ => []

/-- `Object.entries` (also the own-enumerable pairs copied by
`Object.assign({}, a)`): an object's fields; an array's non-hole indexed
elements; a string's characters; `[]` for the remaining primitives.
(`Object.entries(null)` throws in JS, but every claim below applies the
merger to mapping trees only, as the library's data model prescribes.) -/
def jsEntries : Value → List (String × Value)
  | .vObj f => f
  | .vArr xs =>
    (xs.enum.filter (fun p => !p.2.isUndefB)).map
      (fun p => (toString p.1, p.2))
  | .vStr s => s.data.enum.map (fun p => (toString p.1, .vStr (String.mk [p.2])))
  | _ => []

mutual

/-- The loop of `mergeObjects(a, b, mergeStrategy)` from
`src/lib/mergeObjects.js`: one `mergeEntry` per entry of `b`, in order.
`a` is the original first object (the `isObject(a[key])` test reads it)
and `acc` is the evolving `aCopy`. -/
def mergeLoop (s : MergeStrategy) (a : List (String × Value)) :
    List (String × Value) → List (String × Value) → List (String × Value)
  | acc, [] => acc
  | acc, (k, v) :: rest => mergeLoop s a (mergeEntry s a acc k v) rest
termination_by _ l => sizeOf l
decreasing_by all_goals (simp_wf; try omega)

/-- The body of the `for (let [key, value] of Object.entries(b))` loop:
* a key absent from `aCopy` is assigned as-is (appended, JS insertion
  order);
* if `a[key]` and `value` are both plain objects, recursive merge of
  `aCopy[key]` and `value`;
* else if the strategy is MERGE_INDEXED and `aCopy[key]` and `value` are
  both arrays, their de-duplicated concatenation;
* otherwise `value` replaces `aCopy[key]`. -/
def mergeEntry (s : MergeStrategy) (a acc : List (String × Value))
    (k : String) (v : Value) : List (String × Value) :=
  if (getField acc k).isSome = false then acc ++ [(k, v)]
  else
    match v with
    | .vObj vf =>
      if ((getField a k).getD .vUndefined).isObject then
        setField acc k
          (.vObj (mergeLoop s (objFieldsD ((getField acc k).getD .vUndefined))
            (objFieldsD ((getField acc k).getD .vUndefined)) vf))
      else setField acc k (.vObj vf)
    | .vArr ys =>
      if s = .MERGE_INDEXED ∧ ((getField acc k).getD .vUndefined).isArrayB then
        setField acc k (arrayUnion ((getField acc k).getD .vUndefined) (.vArr ys))
      else setField acc k (.vArr ys)
    | other => setField acc k other
termination_by sizeOf v
decreasing_by all_goals (simp_wf; try omega)

end

/-- `mergeObjects(a, b, mergeStrategy)` on field lists: `aCopy` starts as
a copy of `a` (`Object.assign({}, a)` is the identity on a well-formed
field list) and every entry of `b` is folded in. -/
def mergeObjects (a b : List (String × Value)) (s : MergeStrategy) :
    List (String × Value) :=
  mergeLoop s a a b

/-- `mergeObjects` applied to two settings trees (the arguments
`Configuration.merge` passes are `this.get(keyPath, {})`/`this.all()` and
`configuration.all()`). -/
def mergeObjectsV (a b : Value) (s : MergeStrategy) : Value :=
  .vObj (mergeObjects (jsEntries a) (jsEntries b) s)

end Value

namespace Configuration

open Value

/-- `Configuration.merge(configuration, keyPath = null, strategy = MERGE_INDEXED)`,
modelled with the state of both instances passed explicitly.  The result
is `(tree of the returned Configuration, this.settings after the call,
configuration.settings after the call)`; `none` models a thrown exception.

With `keyPath === null` the merged settings are a freshly allocated
object and the new instance is independent of both inputs.  With a key
path, `base` is `this.get(keyPath, {})`, and the returned instance is
`new Configuration(this.all())` — `all()` returns the live tree, not a
copy, so the subsequent `mergedConfiguration.set(keyPath, settings)`
mutates `this.settings` as well: afterwards the receiver's tree and the
result's tree are the same (updated) tree.  A throw inside `set` can only
happen before `set` performs any write (an overwrite with a fresh `{}`
makes the rest of the walk unfailing), so on `none` the receiver is
unchanged. -/
def merge (aTree bTree : Value) (keyPath : Option String)
    (strategy : MergeStrategy := .MERGE_INDEXED) :
    Option (Value × Value × Value) :=
  match keyPath with
  | none => some (mergeObjectsV aTree bTree strategy, aTree, bTree)
  | some p =>
    match getSegs aTree (splitDots p) (.vObj []) with
    | none => none
    | some base =>
      match setSegs aTree (splitDots p) (mergeObjectsV base bTree strategy) with
      | none => none
      | some newTree => some (newTree, newTree, bTree)

end Configuration

namespace ConfigurationBuilder

open Value

/-- One registration made by `addConfigurationSource(source, keyPath)`:
the settings tree the source's `load()` resolves to, and the optional
target key path. -/
abbrev Registration := Value × Option String

/-- `Promise.all` over the fan-out of `build`: the promises are created
in registration order and indexed; whatever order the loads complete in
(`arrivals` is the completion order, each load tagged with its
registration index), `Promise.all` hands back the results in index
order. -/
def promiseAllByIndex (n : Nat) (arrivals : List (Nat × Registration)) :
    List Registration :=
  (List.range n).filterMap
    (fun i => (arrivals.find? (fun p => p.1 == i)).map (fun p => p.2))

/-- The `reduce` step of `build`:
`configuration.merge(new Configuration(settings), keyPath, mergeStrategy)`. -/
def buildStep (s : MergeStrategy) (acc : Option Value) (r : Registration) :
    Option Value :=
  match acc with
  | none => none
  | some t =>
    match Configuration.merge t r.1 r.2 s with
    | none => none
    | some x => some x.1

/-- The sequential fold of `build` over the resolved settings, starting
from `new Configuration()` (an empty tree). -/
def buildFold (s : MergeStrategy) (rs : List Registration) : Option Value :=
  rs.foldl (buildStep s) (some (.vObj []))

/-- `ConfigurationBuilder.build(mergeStrategy)` for `n` registered
sources whose loads complete in the order `arrivals`. -/
def build (arrivals : List (Nat × Registration)) (n : Nat)
    (s : MergeStrategy) : Option Value :=
  buildFold s (promiseAllByIndex n arrivals)

/-- Registration list tagged with registration indices (the order in
which `addConfigurationSource` was called). -/
def withIndexFrom (j : Nat) : List Registration → List (Nat × Registration)
  | [] => []
  | r :: rs => (j, r) :: withIndexFrom (j + 1) rs

def withIndex (rs : List Registration) : List (Nat × Registration) :=
  withIndexFrom 0 rs

end ConfigurationBuilder

namespace Value

/-- A well-formed field list: no duplicate keys (JS objects cannot hold
two properties with the same name). -/
def keysNodup (f : List (String × Value)) : Prop := (f.map Prod.fst).Nodup

instance (f : List (String × Value)) : Decidable (keysNodup f) := by
  unfold keysNodup; infer_instance

end Value

/-! ### Helper lemmas: field lists and list updates -/

namespace Value

theorem getField_setField_self (f : List (String × Value)) (k : String) (x : Value) :
    getField (setField f k x) k = some x := by
  induction f with
  | nil => simp [setField, getField]
  | cons p rest ih =>
    obtain ⟨k', v⟩ := p
    by_cases h : k' = k <;> simp [setField, getField, h, ih]

theorem getField_setField_ne (f : List (String × Value)) {k' k : String}
    (h : k' ≠ k) (x : Value) : getField (setField f k' x) k = getField f k := by
  induction f with
  | nil => simp [setField, getField, h]
  | cons p rest ih =>
    obtain ⟨k₁, v⟩ := p
    by_cases h₁ : k₁ = k'
    · subst h₁; simp [setField, getField, h]
    · by_cases h₂ : k₁ = k <;>
        simp [setField, getField, h₁, h₂, Ne.symm h, ih]

theorem setField_getField_self {f : List (String × Value)} {k : String} {x : Value}
    (h : getField f k = some x) : setField f k x = f := by
  induction f with
  | nil => simp [getField] at h
  | cons p rest ih =>
    obtain ⟨k₁, v⟩ := p
    by_cases h₁ : k₁ = k
    · subst h₁
      simp [getField] at h
      simp [setField, h]
    · simp [getField, h₁] at h
      simp [setField, h₁, ih h]

theorem getField_append_of_none {l₁ : List (String × Value)} {k : String}
    (h : getField l₁ k = none) (l₂ : List (String × Value)) :
    getField (l₁ ++ l₂) k = getField l₂ k := by
  induction l₁ with
  | nil => simp
  | cons p rest ih =>
    obtain ⟨k₁, v⟩ := p
    by_cases h₁ : k₁ = k
    · simp [getField, h₁] at h
    · simp [getField, h₁] at h ⊢
      exact ih h

theorem getField_append_of_some {l₁ : List (String × Value)} {k : String} {x : Value}
    (h : getField l₁ k = some x) (l₂ : List (String × Value)) :
    getField (l₁ ++ l₂) k = some x := by
  induction l₁ with
  | nil => simp [getField] at h
  | cons p rest ih =>
    obtain ⟨k₁, v⟩ := p
    by_cases h₁ : k₁ = k <;> simp [getField, h₁] at h ⊢ <;> simp_all

theorem getField_delField_self (f : List (String × Value)) (k : String) :
    getField (delField f k) k = none := by
  induction f with
  | nil => simp [delField, getField]
  | cons p rest ih =>
    obtain ⟨k₁, v⟩ := p
    by_cases h₁ : k₁ = k <;> simp [delField, h₁, getField, ih]

theorem getField_delField_ne (f : List (String × Value)) {k' k : String}
    (h : k' ≠ k) : getField (delField f k') k = getField f k := by
  induction f with
  | nil => simp [delField, getField]
  | cons p rest ih =>
    obtain ⟨k₁, v⟩ := p
    by_cases h₁ : k₁ = k'
    · subst h₁; simp [delField, getField, h, ih]
    · by_cases h₂ : k₁ = k <;>
        simp [delField, getField, h₁, h₂, Ne.symm h, ih]

end Value

namespace ListLemmas

theorem getD_set_self {α : Type} (d : α) : ∀ (l : List α) (i : Nat) (x : α),
    i < l.length → (l.set i x).getD i d = x
  | _ :: _, 0, x, _ => rfl
  | _ :: rest, i + 1, x, h =>
    getD_set_self d rest i x (Nat.lt_of_succ_lt_succ h)

theorem set_getD_self {α : Type} (d : α) : ∀ (l : List α) (i : Nat),
    i < l.length → l.set i (l.getD i d) = l
  | _ :: _, 0, _ => rfl
  | a :: rest, i + 1, h => by
    have := set_getD_self d rest i (Nat.lt_of_succ_lt_succ h)
    simp [List.set, List.getD] at this ⊢
    exact this

theorem set_getElem_self {α : Type} (l : List α) (i : Nat) (h : i < l.length) :
    l.set i l[i] = l := by
  have h1 := set_getD_self l[i] l i h
  rwa [List.getD_eq_getElem l l[i] h] at h1

theorem getD_set_ne {α : Type} (d : α) : ∀ (l : List α) (i j : Nat) (x : α),
    i ≠ j → (l.set i x).getD j d = l.getD j d
  | [], _, _, _, _ => rfl
  | _ :: _, 0, 0, _, h => absurd rfl h
  | _ :: _, 0, _ + 1, _, _ => rfl
  | _ :: _, _ + 1, 0, _, _ => rfl
  | _ :: rest, i + 1, j + 1, x, h =>
    getD_set_ne d rest i j x (fun e => h (by omega))

end ListLemmas

/-! ### Helper lemmas: the `has`/`get` walk -/

namespace Configuration

open Value

/-- As long as the walk never lands on `null` with segments remaining,
the shared `has` walk terminates normally (never throws). -/
theorem hasSegs_isSome_of_nullFree :
    ∀ (segs : List String) (v : Value),
      nullFreeOnPath v segs = true → (hasSegs v segs).isSome = true := by
  intro segs
  induction segs with
  | nil => intro v _; simp [hasSegs]
  | cons k ks ih =>
    intro v hnf
    cases v with
    | vNull => simp [nullFreeOnPath] at hnf
    | vObj f =>
      by_cases hk : (getField f k).isSome
      · simp [nullFreeOnPath, hk] at hnf
        simpa [hasSegs, hk] using ih _ hnf
      · simp [hasSegs, hk]
    | vArr xs =>
      by_cases hk : inOpArr xs k
      · simp [nullFreeOnPath, hk] at hnf
        simpa [hasSegs, hk] using ih _ hnf
      · simp [hasSegs, hk]
    | vUndefined => simp [hasSegs]
    | vBool b => simp [hasSegs]
    | vNum n => simp [hasSegs]
    | vStr s => simp [hasSegs]

/-- When the `has` walk answers `false`, the identical `get` walk returns
the default value. -/
theorem getSegs_default_of_hasSegs_false :
    ∀ (segs : List String) (v d : Value),
      hasSegs v segs = some false → getSegs v segs d = some d := by
  intro segs
  induction segs with
  | nil => intro v d h; simp [hasSegs] at h
  | cons k ks ih =>
    intro v d h
    cases v with
    | vNull => simp [hasSegs] at h
    | vObj f =>
      by_cases hk : (getField f k).isSome
      · simp [hasSegs, hk] at h
        simpa [getSegs, hk] using ih _ d h
      · simp [getSegs, hk]
    | vArr xs =>
      by_cases hk : inOpArr xs k
      · simp [hasSegs, hk] at h
        simpa [getSegs, hk] using ih _ d h
      · simp [getSegs, hk]
    | vUndefined => simp [getSegs]
    | vBool b => simp [getSegs]
    | vNum n => simp [getSegs]
    | vStr s => simp [getSegs]

/-! ### Helper lemmas: the `set` walk -/

/-- Below a freshly created `{}`, a `set` walk is always safe. -/
theorem setSafe_emptyObj : ∀ (segs : List String), segs ≠ [] →
    setSafe (.vObj []) segs = true := by
  intro segs
  induction segs with
  | nil => intro h; exact absurd rfl h
  | cons k ks ih =>
    intro _
    cases ks with
    | nil => rfl
    | cons k2 ks' => simpa [setSafe, getField] using ih (by simp)

/-- On a safe walk, `set` succeeds and the value is readable back at the
same path (`get` returns it). -/
theorem setSegs_getSegs :
    ∀ (segs : List String) (T v d : Value), setSafe T segs = true →
      ∃ r, setSegs T segs v = some r ∧ getSegs r segs d = some v := by
  intro segs
  induction segs with
  | nil => intro T v d h; simp [setSafe] at h
  | cons k ks ih =>
    intro T v d hsafe
    cases ks with
    | nil =>
      cases T with
      | vObj f =>
        refine ⟨.vObj (setField f k v), rfl, ?_⟩
        simp [getSegs, getField_setField_self]
      | vUndefined => simp [setSafe] at hsafe
      | vNull => simp [setSafe] at hsafe
      | vBool b => simp [setSafe] at hsafe
      | vNum n => simp [setSafe] at hsafe
      | vStr s => simp [setSafe] at hsafe
      | vArr xs => simp [setSafe] at hsafe
    | cons k2 ks' =>
      cases T with
      | vObj f =>
        rcases hcur : (getField f k).getD .vUndefined with _ | _ | b | n | s | xs | g
        · -- absent key: overwritten with a fresh empty mapping
          have hsafe' : setSafe (.vObj []) (k2 :: ks') = true := by
            simpa [setSafe, hcur] using hsafe
          obtain ⟨r', hset, hget⟩ := ih (.vObj []) v d hsafe'
          refine ⟨.vObj (setField f k r'), ?_, ?_⟩
          · simp [setSegs, propRead, hcur, typeofIsObject, hset, propWrite]
          · simp [getSegs, getField_setField_self, hget]
        · simp [setSafe, hcur] at hsafe
        · have hsafe' : setSafe (.vObj []) (k2 :: ks') = true := by
            simpa [setSafe, hcur] using hsafe
          obtain ⟨r', hset, hget⟩ := ih (.vObj []) v d hsafe'
          refine ⟨.vObj (setField f k r'), ?_, ?_⟩
          · simp [setSegs, propRead, hcur, typeofIsObject, hset, propWrite]
          · simp [getSegs, getField_setField_self, hget]
        · have hsafe' : setSafe (.vObj []) (k2 :: ks') = true := by
            simpa [setSafe, hcur] using hsafe
          obtain ⟨r', hset, hget⟩ := ih (.vObj []) v d hsafe'
          refine ⟨.vObj (setField f k r'), ?_, ?_⟩
          · simp [setSegs, propRead, hcur, typeofIsObject, hset, propWrite]
          · simp [getSegs, getField_setField_self, hget]
        · have hsafe' : setSafe (.vObj []) (k2 :: ks') = true := by
            simpa [setSafe, hcur] using hsafe
          obtain ⟨r', hset, hget⟩ := ih (.vObj []) v d hsafe'
          refine ⟨.vObj (setField f k r'), ?_, ?_⟩
          · simp [setSegs, propRead, hcur, typeofIsObject, hset, propWrite]
          · simp [getSegs, getField_setField_self, hget]
        · simp [setSafe, hcur] at hsafe
        · -- existing nested mapping: descended into
          have hsafe' : setSafe (.vObj g) (k2 :: ks') = true := by
            simpa [setSafe, hcur] using hsafe
          obtain ⟨r', hset, hget⟩ := ih (.vObj g) v d hsafe'
          refine ⟨.vObj (setField f k r'), ?_, ?_⟩
          · simp [setSegs, propRead, hcur, typeofIsObject, hset, propWrite]
          · simp [getSegs, getField_setField_self, hget]
      | vUndefined => simp [setSafe] at hsafe
      | vNull => simp [setSafe] at hsafe
      | vBool b => simp [setSafe] at hsafe
      | vNum n => simp [setSafe] at hsafe
      | vStr s => simp [setSafe] at hsafe
      | vArr xs => simp [setSafe] at hsafe

/-! ### Helper lemmas: the `remove` walk -/

/-- Reading a property of a string never yields an object-typed value. -/
theorem typeofIsObject_readStr (s : String) (k : String) :
    (readStr s k).typeofIsObject = false := by
  unfold readStr
  cases toArrayIndex k with
  | none => by_cases h : k = "length" <;> simp [h, typeofIsObject]
  | some i => cases hc : s.data[i]? <;> simp [hc, typeofIsObject]

/-- An object-typed value read from an object field list is an actual
entry of the list. -/
theorem getField_of_getD_ne_undef {f : List (String × Value)} {k : String}
    {cur : Value} (h : (getField f k).getD .vUndefined = cur)
    (hne : cur.isUndefB = false) : getField f k = some cur := by
  cases hf : getField f k with
  | none => rw [hf] at h; simp at h; simp [← h, isUndefB] at hne
  | some w => rw [hf] at h; simp at h; rw [h]

/-- An object-typed array slot is an in-range element. -/
theorem lt_length_of_getD_ne_undef {xs : List Value} {i : Nat} {cur : Value}
    (h : xs.getD i .vUndefined = cur) (hne : cur.isUndefB = false) :
    i < xs.length := by
  by_contra hge
  rw [List.getD_eq_default _ _ (Nat.le_of_not_lt hge)] at h
  simp [← h, isUndefB] at hne

/-- Writing back the value just read leaves the container unchanged
(a successful `remove` performs no other write on the spine). -/
theorem propWrite_self {v cur : Value} {k : String}
    (hread : propRead v k = some cur) (hobj : cur.typeofIsObject = true) :
    propWrite v k cur = some v := by
  cases v with
  | vNull => simp [propRead] at hread
  | vUndefined => simp [propRead] at hread
  | vBool b =>
    simp [propRead] at hread; simp [← hread, typeofIsObject] at hobj
  | vNum n =>
    simp [propRead] at hread; simp [← hread, typeofIsObject] at hobj
  | vStr s =>
    simp [propRead] at hread
    rw [← hread] at hobj
    simp [typeofIsObject_readStr] at hobj
  | vObj f =>
    simp [propRead] at hread
    have hne : cur.isUndefB = false := by
      cases cur <;> simp [isUndefB] <;> simp [typeofIsObject] at hobj
    have := getField_of_getD_ne_undef hread hne
    simp [propWrite, setField_getField_self this]
  | vArr xs =>
    simp [propRead] at hread
    unfold readArr at hread
    cases hidx : toArrayIndex k with
    | some i =>
      rw [hidx] at hread
      have hne : cur.isUndefB = false := by
        cases cur <;> simp [isUndefB] <;> simp [typeofIsObject] at hobj
      have hlt := lt_length_of_getD_ne_undef hread hne
      simp [propWrite, hidx, listWriteAt, hlt, ← hread,
        List.getD_eq_getElem xs .vUndefined hlt,
        ListLemmas.set_getElem_self xs i hlt]
    | none =>
      rw [hidx] at hread
      by_cases hk : k = "length"
      · simp [hk] at hread; simp [← hread, typeofIsObject] at hobj
      · simp [hk] at hread; simp [← hread, typeofIsObject] at hobj

/-- A successful `remove` preserves the container's constructor at every
level it rewrites. -/
theorem removeSegs_shape {v r : Value} {segs : List String}
    (h : removeSegs v segs = some r) :
    (v.isObject = true → r.isObject = true) ∧
    (v.isArrayB = true → r.isArrayB = true) := by
  cases segs with
  | nil => simp [removeSegs] at h
  | cons k ks =>
    cases ks with
    | nil =>
      cases v with
      | vObj f => simp [removeSegs, delProp] at h; simp [← h, isObject, isArrayB]
      | vArr xs =>
        simp [removeSegs, delProp] at h
        cases hidx : toArrayIndex k with
        | some i =>
          rw [hidx] at h; simp at h; simp [← h, isObject, isArrayB]
        | none =>
          rw [hidx] at h
          by_cases hk : k = "length"
          · simp [hk] at h
          · simp [hk] at h; simp [← h, isObject, isArrayB]
      | vNull => simp [removeSegs, delProp] at h
      | vUndefined => simp [removeSegs, delProp] at h
      | vBool b => simp [removeSegs, delProp] at h; simp [← h, isObject, isArrayB]
      | vNum n => simp [removeSegs, delProp] at h; simp [← h, isObject, isArrayB]
      | vStr s =>
        constructor <;> intro hv <;> simp [isObject, isArrayB] at hv
    | cons k2 ks' =>
      cases hread : propRead v k with
      | none => simp [removeSegs, hread] at h
      | some cur =>
        by_cases hobj : cur.typeofIsObject
        · simp [removeSegs, hread, hobj] at h
          cases hrec : removeSegs cur (k2 :: ks') with
          | none => rw [hrec] at h; simp at h
          | some cur' =>
            rw [hrec] at h; simp at h
            cases v with
            | vObj f => simp [propWrite] at h; simp [← h, isObject, isArrayB]
            | vArr xs =>
              simp [propWrite] at h
              cases hidx : toArrayIndex k with
              | some i => rw [hidx] at h; simp at h; simp [← h, isObject, isArrayB]
              | none =>
                rw [hidx] at h
                by_cases hk : k = "length"
                · simp [hk] at h
                  cases cur' with
                  | vNum m =>
                    by_cases hm : 0 ≤ m
                    · simp [hm] at h; simp [← h, isObject, isArrayB]
                    · simp [hm] at h
                  | vUndefined => simp at h
                  | vNull => simp at h
                  | vBool b => simp at h
                  | vStr s => simp at h
                  | vArr ys => simp at h
                  | vObj g => simp at h
                · simp [hk] at h; simp [← h, isObject, isArrayB]
            | vNull => simp [propWrite] at h
            | vUndefined => simp [propWrite] at h
            | vBool b => simp [propWrite] at h
            | vNum n => simp [propWrite] at h
            | vStr s => simp [propWrite] at h
        · simp [removeSegs, hread, hobj] at h
          subst h
          exact ⟨fun hv => hv, fun hv => hv⟩

/-- A `remove` walk that fails the guard on a non-final slot returns the
tree unchanged (the silent no-op of the source). -/
theorem removeSegs_noop_of_broken :
    ∀ (segs : List String) (v : Value),
      removeBroken v segs = true → removeSegs v segs = some v := by
  intro segs
  induction segs with
  | nil => intro v h; simp [removeBroken] at h
  | cons k ks ih =>
    intro v h
    cases ks with
    | nil => simp [removeBroken] at h
    | cons k2 ks' =>
      cases hread : propRead v k with
      | none => simp [removeBroken, hread] at h
      | some cur =>
        by_cases hobj : cur.typeofIsObject
        · simp [removeBroken, hread, hobj] at h
          have hrec := ih cur h
          simp [removeSegs, hread, hobj, hrec, propWrite_self hread hobj]
        · simp [removeSegs, hread, hobj]

/-- After a `remove` call returns (deletion or silent no-op alike), the
same path no longer tests present: `has` answers `false`. -/
theorem hasSegs_false_of_removeSegs :
    ∀ (segs : List String) (v r : Value),
      removeSegs v segs = some r → hasSegs r segs = some false := by
  intro segs
  induction segs with
  | nil => intro v r h; simp [removeSegs] at h
  | cons k ks ih =>
    intro v r h
    cases ks with
    | nil =>
      -- final segment: `delete parent[k]`
      cases v with
      | vNull => simp [removeSegs, delProp] at h
      | vUndefined => simp [removeSegs, delProp] at h
      | vBool b =>
        simp [removeSegs, delProp] at h; simp [← h, hasSegs]
      | vNum n =>
        simp [removeSegs, delProp] at h; simp [← h, hasSegs]
      | vStr s =>
        have : r = .vStr s := by
          simp [removeSegs, delProp] at h
          by_cases hk : k = "length"
          · simp [hk] at h
          · simp [hk] at h
            cases hidx : toArrayIndex k with
            | some i =>
              rw [hidx] at h
              by_cases hlt : i < s.length <;> simp [hlt] at h <;> simp [← h]
            | none => rw [hidx] at h; simp at h; simp [← h]
        simp [this, hasSegs]
      | vObj f =>
        simp [removeSegs, delProp] at h
        simp [← h, hasSegs, getField_delField_self]
      | vArr xs =>
        simp [removeSegs, delProp] at h
        cases hidx : toArrayIndex k with
        | some i =>
          rw [hidx] at h; simp at h
          by_cases hlt : i < xs.length
          · simp [hlt] at h
            have hset : (xs.set i Value.vUndefined)[i]? = some Value.vUndefined :=
              List.getElem?_set_eq_of_lt _ hlt
            simp [← h, hasSegs, inOpArr, hidx, List.getD_eq_getElem?_getD,
              hset, isUndefB]
          · simp [hlt] at h
            have hnone : xs[i]? = none :=
              List.getElem?_eq_none_iff.mpr (Nat.le_of_not_lt hlt)
            simp [← h, hasSegs, inOpArr, hidx, List.getD_eq_getElem?_getD,
              hnone, isUndefB]
        | none =>
          rw [hidx] at h
          by_cases hk : k = "length"
          · simp [hk] at h
          · simp [hk] at h
            simp [← h, hasSegs, inOpArr, hidx, hk]
    | cons k2 ks' =>
      cases hread : propRead v k with
      | none => simp [removeSegs, hread] at h
      | some cur =>
        by_cases hobj : cur.typeofIsObject
        · -- the walk descended; a genuine delete happened below
          simp [removeSegs, hread, hobj] at h
          cases hrec : removeSegs cur (k2 :: ks') with
          | none => rw [hrec] at h; simp at h
          | some cur' =>
            rw [hrec] at h; simp at h
            have hih := ih cur cur' hrec
            have hshape := removeSegs_shape hrec
            cases v with
            | vNull => simp [propRead] at hread
            | vUndefined => simp [propRead] at hread
            | vBool b =>
              simp [propRead] at hread
              simp [← hread, typeofIsObject] at hobj
            | vNum n =>
              simp [propRead] at hread
              simp [← hread, typeofIsObject] at hobj
            | vStr s =>
              simp [propRead] at hread
              rw [← hread] at hobj
              simp [typeofIsObject_readStr] at hobj
            | vObj f =>
              simp [propWrite] at h
              simp [← h, hasSegs, getField_setField_self, hih]
            | vArr xs =>
              -- `cur` came from an in-range element
              simp [propRead] at hread
              unfold readArr at hread
              cases hidx : toArrayIndex k with
              | none =>
                rw [hidx] at hread
                by_cases hk : k = "length"
                · simp [hk] at hread; simp [← hread, typeofIsObject] at hobj
                · simp [hk] at hread; simp [← hread, typeofIsObject] at hobj
              | some i =>
                rw [hidx] at hread
                have hne : cur.isUndefB = false := by
                  cases cur <;> simp [isUndefB] <;>
                    simp [typeofIsObject] at hobj
                have hlt := lt_length_of_getD_ne_undef hread hne
                have hcur' : cur'.isUndefB = false := by
                  have hnn : cur ≠ .vNull := by
                    intro hc
                    rw [hc] at hrec
                    cases ks' with
                    | nil => simp [removeSegs, delProp] at hrec
                    | cons a b => simp [removeSegs, propRead] at hrec
                  cases cur with
                  | vObj g =>
                    have := hshape.1 (by simp [isObject])
                    cases cur' <;> simp [isObject] at this <;> simp [isUndefB]
                  | vArr ys =>
                    have := hshape.2 (by simp [isArrayB])
                    cases cur' <;> simp [isArrayB] at this <;> simp [isUndefB]
                  | vNull => exact absurd rfl hnn
                  | vUndefined => simp [typeofIsObject] at hobj
                  | vBool b => simp [typeofIsObject] at hobj
                  | vNum n => simp [typeofIsObject] at hobj
                  | vStr s => simp [typeofIsObject] at hobj
                have hset : (xs.set i cur')[i]? = some cur' :=
                  List.getElem?_set_eq_of_lt _ hlt
                simp [propWrite, hidx, listWriteAt, hlt] at h
                simp [← h, hasSegs, inOpArr, hidx, List.getD_eq_getElem?_getD,
                  hset, hcur', readArr, hih]
        · -- guard failed on a non-final slot: silent no-op, and the
          -- broken path already tests absent
          simp [removeSegs, hread, hobj] at h
          subst h
          cases v with
          | vNull => simp [propRead] at hread
          | vUndefined => simp [propRead] at hread
          | vBool b => simp [hasSegs]
          | vNum n => simp [hasSegs]
          | vStr s => simp [hasSegs]
          | vObj f =>
            simp [propRead] at hread
            cases hf : getField f k with
            | none => simp [hasSegs, hf]
            | some w =>
              rw [hf] at hread; simp at hread
              have hw : hasSegs w (k2 :: ks') = some false := by
                rw [hread]
                cases cur with
                | vNull => simp [typeofIsObject] at hobj
                | vObj g => simp [typeofIsObject] at hobj
                | vArr ys => simp [typeofIsObject] at hobj
                | vUndefined => simp [hasSegs]
                | vBool b => simp [hasSegs]
                | vNum n => simp [hasSegs]
                | vStr s => simp [hasSegs]
              simp [hasSegs, hf, hw]
          | vArr xs =>
            simp [propRead] at hread
            by_cases hin : inOpArr xs k
            · have : hasSegs (readArr xs k) (k2 :: ks') = some false := by
                rw [hread]
                cases cur with
                | vNull => simp [typeofIsObject] at hobj
                | vObj g => simp [typeofIsObject] at hobj
                | vArr ys => simp [typeofIsObject] at hobj
                | vUndefined => simp [hasSegs]
                | vBool b => simp [hasSegs]
                | vNum n => simp [hasSegs]
                | vStr s => simp [hasSegs]
              simp [hasSegs, hin, this]
            · simp [hasSegs, hin]

end Configuration

/-! ### Helper lemmas: the tree merger -/

namespace Value

theorem getField_eq_none_of_not_mem_keys {f : List (String × Value)} {k : String}
    (h : k ∉ f.map Prod.fst) : getField f k = none := by
  induction f with
  | nil => rfl
  | cons p rest ih =>
    obtain ⟨k₁, v⟩ := p
    simp only [List.map_cons, List.mem_cons, not_or] at h
    have h₁ : ¬k₁ = k := fun e => h.1 (Eq.symm e)
    simp [getField, h₁, ih h.2]

theorem getField_append_single_ne (acc : List (String × Value)) {k₁ k : String}
    (h : k₁ ≠ k) (v : Value) :
    getField (acc ++ [(k₁, v)]) k = getField acc k := by
  cases hacc : getField acc k with
  | some w => exact getField_append_of_some hacc _
  | none => rw [getField_append_of_none hacc]; simp [getField, h]

/-- `mergeEntry` touches only its own key. -/
theorem getField_mergeEntry_ne (s : MergeStrategy)
    (a acc : List (String × Value)) {k₁ k : String} (h : k₁ ≠ k) (v : Value) :
    getField (mergeEntry s a acc k₁ v) k = getField acc k := by
  by_cases hacc : (getField acc k₁).isSome = false
  · cases v <;> simp [mergeEntry, hacc, getField_append_single_ne _ h]
  · cases v with
    | vObj vf =>
      by_cases hobj : ((getField a k₁).getD .vUndefined).isObject <;>
        simp [mergeEntry, hacc, hobj, getField_setField_ne _ h]
    | vArr ys =>
      by_cases harr : s = .MERGE_INDEXED ∧ ((getField acc k₁).getD .vUndefined).isArrayB <;>
        simp [mergeEntry, hacc, harr, getField_setField_ne _ h]
    | vUndefined => simp [mergeEntry, hacc, getField_setField_ne _ h]
    | vNull => simp [mergeEntry, hacc, getField_setField_ne _ h]
    | vBool b => simp [mergeEntry, hacc, getField_setField_ne _ h]
    | vNum n => simp [mergeEntry, hacc, getField_setField_ne _ h]
    | vStr str => simp [mergeEntry, hacc, getField_setField_ne _ h]

/-- A key that `b` does not mention keeps its `aCopy` value through the
whole loop. -/
theorem getField_mergeLoop_of_none :
    ∀ (bs : List (String × Value)) (s : MergeStrategy)
      (a acc : List (String × Value)) {k : String},
      getField bs k = none →
      getField (mergeLoop s a acc bs) k = getField acc k := by
  intro bs
  induction bs with
  | nil => intro s a acc k _; rw [mergeLoop]
  | cons p rest ih =>
    obtain ⟨k₁, v⟩ := p
    intro s a acc k h
    have hk₁ : k₁ ≠ k := by
      intro e; subst e; simp [getField] at h
    have hrest : getField rest k = none := by
      simpa [getField, hk₁] using h
    rw [mergeLoop, ih s a _ hrest, getField_mergeEntry_ne s a acc hk₁ v]

/-- The value `mergeEntry` stores under its own key, by case. -/
theorem getField_mergeEntry_self (s : MergeStrategy)
    (a acc : List (String × Value)) (k : String) (v : Value) :
    getField (mergeEntry s a acc k v) k = some (
      if (getField acc k).isSome = false then v
      else
        match v with
        | .vObj vf =>
          if ((getField a k).getD .vUndefined).isObject then
            .vObj (mergeLoop s (objFieldsD ((getField acc k).getD .vUndefined))
              (objFieldsD ((getField acc k).getD .vUndefined)) vf)
          else .vObj vf
        | .vArr ys =>
          if s = .MERGE_INDEXED ∧ ((getField acc k).getD .vUndefined).isArrayB then
            arrayUnion ((getField acc k).getD .vUndefined) (.vArr ys)
          else .vArr ys
        | other => other) := by
  by_cases hacc : (getField acc k).isSome = false
  · have hnone : getField acc k = none := by
      cases h : getField acc k with
      | none => rfl
      | some w => rw [h] at hacc; simp at hacc
    cases v <;>
      simp [mergeEntry, hacc, getField_append_of_none hnone, getField]
  · cases v with
    | vObj vf =>
      by_cases hobj : ((getField a k).getD .vUndefined).isObject <;>
        simp [mergeEntry, hacc, hobj, getField_setField_self]
    | vArr ys =>
      by_cases harr : s = .MERGE_INDEXED ∧ ((getField acc k).getD .vUndefined).isArrayB <;>
        simp [mergeEntry, hacc, harr, getField_setField_self]
    | vUndefined => simp [mergeEntry, hacc, getField_setField_self]
    | vNull => simp [mergeEntry, hacc, getField_setField_self]
    | vBool b => simp [mergeEntry, hacc, getField_setField_self]
    | vNum n => simp [mergeEntry, hacc, getField_setField_self]
    | vStr str => simp [mergeEntry, hacc, getField_setField_self]

/-- The result of the merge loop at a key of `b` (keys of `b` are unique,
as JS object keys always are): the single `mergeEntry` for that key
decides the result, reading `a`'s and `aCopy`'s current value. -/
theorem getField_mergeLoop_of_some :
    ∀ (bs : List (String × Value)) (s : MergeStrategy)
      (a acc : List (String × Value)) {k : String} {v : Value},
      keysNodup bs → getField bs k = some v →
      getField (mergeLoop s a acc bs) k = some (
        if (getField acc k).isSome = false then v
        else
          match v with
          | .vObj vf =>
            if ((getField a k).getD .vUndefined).isObject then
              .vObj (mergeLoop s (objFieldsD ((getField acc k).getD .vUndefined))
                (objFieldsD ((getField acc k).getD .vUndefined)) vf)
            else .vObj vf
          | .vArr ys =>
            if s = .MERGE_INDEXED ∧ ((getField acc k).getD .vUndefined).isArrayB then
              arrayUnion ((getField acc k).getD .vUndefined) (.vArr ys)
            else .vArr ys
          | other => other) := by
  intro bs
  induction bs with
  | nil => intro s a acc k v _ h; simp [getField] at h
  | cons p rest ih =>
    obtain ⟨k₁, v₁⟩ := p
    intro s a acc k v hnd h
    by_cases hk₁ : k₁ = k
    · subst hk₁
      have hv : v₁ = v := by simpa [getField] using h
      subst hv
      have hrest : getField rest k₁ = none := by
        apply getField_eq_none_of_not_mem_keys
        unfold keysNodup at hnd
        simp only [List.map_cons, List.nodup_cons] at hnd
        exact hnd.1
      rw [mergeLoop, getField_mergeLoop_of_none rest s a _ hrest,
        getField_mergeEntry_self]
    · have hrest : getField rest k = some v := by
        simpa [getField, hk₁] using h
      have hnd' : keysNodup rest := by
        unfold keysNodup at hnd ⊢
        simp only [List.map_cons, List.nodup_cons] at hnd
        exact hnd.2
      rw [mergeLoop, ih s a _ hnd' hrest,
        getField_mergeEntry_ne s a acc hk₁ v₁]

/-- Appending all of `b` when none of its keys is present in `aCopy`. -/
theorem mergeLoop_all_new :
    ∀ (bs : List (String × Value)) (s : MergeStrategy)
      (a acc : List (String × Value)),
      keysNodup bs → (∀ k, k ∈ bs.map Prod.fst → getField acc k = none) →
      mergeLoop s a acc bs = acc ++ bs := by
  intro bs
  induction bs with
  | nil => intro s a acc _ _; rw [mergeLoop]; simp
  | cons p rest ih =>
    obtain ⟨k₁, v⟩ := p
    intro s a acc hnd hnew
    have hk₁ : getField acc k₁ = none := hnew k₁ (by simp)
    have hstep : mergeEntry s a acc k₁ v = acc ++ [(k₁, v)] := by
      cases v <;> simp [mergeEntry, hk₁]
    unfold keysNodup at hnd
    simp only [List.map_cons, List.nodup_cons] at hnd
    have hnew' : ∀ k, k ∈ rest.map Prod.fst → getField (acc ++ [(k₁, v)]) k = none := by
      intro k hk
      have hkne : k₁ ≠ k := by
        intro e; subst e; exact hnd.1 hk
      rw [getField_append_single_ne _ hkne,
        hnew k (by simp only [List.map_cons, List.mem_cons]; exact Or.inr hk)]
    rw [mergeLoop, hstep, ih s a _ hnd.2 hnew']
    simp

/-! ### Helper lemmas: JS `Set` de-duplication -/

/-- On primitives, SameValueZero membership is structural equality. -/
theorem svzEq_iff {x : Value} (hx : x.isPrimitiveB = true) (w : Value) :
    svzEq w x = true ↔ w = x := by
  cases x <;> cases w <;> simp_all [svzEq, isPrimitiveB]

theorem setDedupAux_sublist :
    ∀ (l seen : List Value), (setDedupAux seen l).Sublist l := by
  intro l
  induction l with
  | nil => intro seen; simp [setDedupAux]
  | cons x xs ih =>
    intro seen
    by_cases h : seen.any (fun w => svzEq w x)
    · simp only [setDedupAux, h, if_true]
      exact (ih seen).cons x
    · simp only [setDedupAux, h, if_false]
      exact (ih (seen ++ [x])).cons₂ x

theorem mem_setDedupAux :
    ∀ (l seen : List Value) (v : Value),
      (∀ w ∈ l, w.isPrimitiveB = true) →
      (v ∈ setDedupAux seen l ↔ v ∈ l ∧ v ∉ seen) := by
  intro l
  induction l with
  | nil => intro seen v _; simp [setDedupAux]
  | cons x xs ih =>
    intro seen v hprim
    have hx : x.isPrimitiveB = true := hprim x (by simp)
    have hxs : ∀ w ∈ xs, w.isPrimitiveB = true :=
      fun w hw => hprim w (by simp [hw])
    by_cases h : seen.any (fun w => svzEq w x)
    · have hxseen : x ∈ seen := by
        rcases List.any_eq_true.mp h with ⟨w, hw, he⟩
        rwa [← (svzEq_iff hx w).mp he]
      simp only [setDedupAux, h, if_true]
      rw [ih seen v hxs]
      constructor
      · rintro ⟨hv, hns⟩; exact ⟨by simp [hv], hns⟩
      · rintro ⟨hv, hns⟩
        rcases List.mem_cons.mp hv with rfl | hv'
        · exact absurd hxseen hns
        · exact ⟨hv', hns⟩
    · have hxseen : x ∉ seen := by
        intro hmem
        exact h (List.any_eq_true.mpr ⟨x, hmem, (svzEq_iff hx x).mpr rfl⟩)
      simp only [setDedupAux, h, if_false]
      constructor
      · intro hv
        rcases List.mem_cons.mp hv with rfl | hv'
        · exact ⟨by simp, hxseen⟩
        · have := (ih (seen ++ [x]) v hxs).mp hv'
          refine ⟨by simp [this.1], fun hs => this.2 (by simp [hs])⟩
      · rintro ⟨hv, hns⟩
        rcases List.mem_cons.mp hv with rfl | hv'
        · exact List.mem_cons_self _ _
        · by_cases hvx : v = x
          · subst hvx; exact List.mem_cons_self _ _
          · refine List.mem_cons.mpr (Or.inr ?_)
            exact (ih (seen ++ [x]) v hxs).mpr
              ⟨hv', by simp [hns, hvx]⟩

theorem nodup_setDedupAux :
    ∀ (l seen : List Value), (∀ w ∈ l, w.isPrimitiveB = true) →
      (setDedupAux seen l).Nodup := by
  intro l
  induction l with
  | nil => intro seen _; simp [setDedupAux]
  | cons x xs ih =>
    intro seen hprim
    have hxs : ∀ w ∈ xs, w.isPrimitiveB = true :=
      fun w hw => hprim w (by simp [hw])
    by_cases h : seen.any (fun w => svzEq w x)
    · simp only [setDedupAux, h, if_true]
      exact ih seen hxs
    · simp only [setDedupAux, h, if_false]
      refine List.nodup_cons.mpr ⟨?_, ih (seen ++ [x]) hxs⟩
      intro hmem
      have := (mem_setDedupAux xs (seen ++ [x]) x hxs).mp hmem
      exact this.2 (by simp)

end Value

/-! ### Helper lemmas: the builder's indexed fan-out -/

namespace ConfigurationBuilder

theorem withIndexFrom_map_fst (rs : List Registration) :
    ∀ j, (withIndexFrom j rs).map Prod.fst = List.range' j rs.length := by
  induction rs with
  | nil => intro j; simp [withIndexFrom]
  | cons r rest ih =>
    intro j
    simp [withIndexFrom, List.range', ih (j + 1)]

theorem mem_withIndexFrom (d : Registration) (rs : List Registration) :
    ∀ (j i : Nat), i < rs.length →
      (j + i, rs.getD i d) ∈ withIndexFrom j rs := by
  induction rs with
  | nil => intro j i h; simp at h
  | cons r rest ih =>
    intro j i h
    cases i with
    | zero => simp [withIndexFrom, List.getD]
    | succ i' =>
      have := ih (j + 1) i' (Nat.lt_of_succ_lt_succ h)
      have harith : j + (i' + 1) = j + 1 + i' := by omega
      simp only [withIndexFrom, List.mem_cons]
      right
      simpa [harith, List.getD] using this

theorem find?_eq_of_key_mem {l : List (Nat × Registration)} {i : Nat}
    {x : Registration} (hnd : (l.map Prod.fst).Nodup) (hm : (i, x) ∈ l) :
    l.find? (fun p => p.1 == i) = some (i, x) := by
  induction l with
  | nil => simp at hm
  | cons p rest ih =>
    obtain ⟨j, y⟩ := p
    simp only [List.map_cons, List.nodup_cons] at hnd
    by_cases hj : j = i
    · subst hj
      rcases List.mem_cons.mp hm with he | hm'
      · rw [List.find?_cons_of_pos _ (by simp)]
        exact congrArg some he.symm
      · exact absurd (List.mem_map.mpr ⟨(j, x), hm', rfl⟩) hnd.1
    · rcases List.mem_cons.mp hm with he | hm'
      · exact absurd (congrArg Prod.fst he).symm hj
      · rw [List.find?_cons_of_neg _ (by simp [hj])]
        exact ih hnd.2 hm'

theorem map_getD_range (d : Registration) :
    ∀ (rs : List Registration),
      (List.range rs.length).map (fun i => rs.getD i d) = rs := by
  intro rs
  induction rs with
  | nil => simp
  | cons r rest ih =>
    rw [List.length_cons, List.range_succ_eq_map]
    rw [List.map_cons, List.map_map]
    have h1 : (r :: rest).getD 0 d = r := rfl
    have h2 : ((fun i => (r :: rest).getD i d) ∘ Nat.succ) =
        (fun i => rest.getD i d) := by
      funext i; rfl
    rw [h1, h2, ih]

/-- `Promise.all` undoes any completion-order interleaving: whatever the
order in which the indexed loads settle, the results come back in
registration order. -/
theorem promiseAllByIndex_of_perm {rs : List Registration}
    {arrivals : List (Nat × Registration)}
    (h : arrivals.Perm (withIndex rs)) :
    promiseAllByIndex rs.length arrivals = rs := by
  have hnd : (arrivals.map Prod.fst).Nodup := by
    have hperm : (arrivals.map Prod.fst).Perm ((withIndex rs).map Prod.fst) :=
      h.map Prod.fst
    have : ((withIndex rs).map Prod.fst).Nodup := by
      unfold withIndex
      rw [withIndexFrom_map_fst]
      exact List.nodup_range' 0 rs.length
    exact hperm.nodup_iff.mpr this
  have hfind : ∀ i, i < rs.length →
      arrivals.find? (fun p => p.1 == i) = some (i, rs.getD i (.vObj [], none)) := by
    intro i hi
    apply find?_eq_of_key_mem hnd
    apply h.mem_iff.mpr
    have := mem_withIndexFrom (.vObj [], none) rs 0 i hi
    simpa using this
  unfold promiseAllByIndex
  have : ∀ i ∈ List.range rs.length,
      (arrivals.find? (fun p => p.1 == i)).map (fun p => p.2) =
        some (rs.getD i (.vObj [], none)) := by
    intro i hi
    rw [hfind i (List.mem_range.mp hi)]
    rfl
  rw [List.filterMap_congr this]
  rw [List.filterMap_eq_map_iff_forall_eq_some.mpr (fun i _ => rfl)]
  exact map_getD_range (.vObj [], none) rs

end ConfigurationBuilder

/-! ### Helper lemmas: `merge` and `set` shape inversion -/

namespace Configuration

open Value

theorem splitAux_ne_nil : ∀ (cs acc : List Char), splitAux cs acc ≠ [] := by
  intro cs
  induction cs with
  | nil => intro acc; simp [splitAux]
  | cons c cs' ih =>
    intro acc
    by_cases h : c = '.' <;> simp [splitAux, h, ih]

theorem splitDots_ne_nil (s : String) : splitDots s ≠ [] :=
  splitAux_ne_nil s.data []

/-- A successful `set` on an object rewrites exactly the head key of the
path at the top level. -/
theorem setSegs_obj_shape {f : List (String × Value)} {k : String}
    {tl : List String} {v r : Value}
    (h : setSegs (.vObj f) (k :: tl) v = some r) :
    ∃ u, r = .vObj (setField f k u) := by
  cases tl with
  | nil =>
    simp [setSegs, propWrite] at h
    exact ⟨v, h.symm⟩
  | cons k2 ks =>
    simp only [setSegs, propRead] at h
    by_cases hc : ((getField f k).getD .vUndefined).typeofIsObject
    · rw [if_pos hc] at h
      cases hrec : setSegs ((getField f k).getD .vUndefined) (k2 :: ks) v with
      | none => rw [hrec] at h; simp at h
      | some cur' =>
        rw [hrec] at h
        simp [propWrite] at h
        exact ⟨cur', h.symm⟩
    · rw [if_neg hc] at h
      cases hrec : setSegs (.vObj []) (k2 :: ks) v with
      | none => rw [hrec] at h; simp at h
      | some cur' =>
        rw [hrec] at h
        simp [propWrite] at h
        exact ⟨cur', h.symm⟩

/-- Inverting a successful `merge` at a key path: the receiver's tree
after the call and the result's tree are the same object, and the
argument is untouched. -/
theorem merge_some_inv {aT bT r a' b' : Value} {p : String}
    {s : MergeStrategy}
    (h : merge aT bT (some p) s = some (r, a', b')) : a' = r ∧ b' = bT := by
  simp only [merge] at h
  cases hbase : getSegs aT (splitDots p) (.vObj []) with
  | none => simp [hbase] at h
  | some base =>
    cases hset : setSegs aT (splitDots p) (mergeObjectsV base bT s) with
    | none => simp [hbase, hset] at h
    | some nt =>
      simp [hbase, hset] at h
      obtain ⟨h1, h2, h3⟩ := h
      rw [← h1, ← h2, ← h3]
      exact ⟨rfl, rfl⟩

/-- Inverting a successful `merge` at a key path: the result's tree is
`this.all()` with `mergeObjects(this.get(keyPath, {}), other.all(),
strategy)` written at the key path via `set`. -/
theorem merge_result_eq {aT bT r a' b' : Value} {p : String}
    {s : MergeStrategy}
    (h : merge aT bT (some p) s = some (r, a', b')) :
    ∃ base, getSegs aT (splitDots p) (.vObj []) = some base ∧
      setSegs aT (splitDots p) (mergeObjectsV base bT s) = some r := by
  simp only [merge] at h
  cases hbase : getSegs aT (splitDots p) (.vObj []) with
  | none => simp [hbase] at h
  | some base =>
    cases hset : setSegs aT (splitDots p) (mergeObjectsV base bT s) with
    | none => simp [hbase, hset] at h
    | some nt =>
      simp [hbase, hset] at h
      exact ⟨base, rfl, h.1 ▸ hset⟩

end Configuration

/-! ### Claims -/

namespace Claims

open Value Configuration ConfigurationBuilder

/-- C1 (counterexample): `merge` with a non-null key path is not pure.
`new Configuration({}).merge(new Configuration({key:"value"}), "nested")`
leaves the receiver's tree equal to `{nested: {key: "value"}}`, not to
its prior value `{}` — `merge` passes the live `this.all()` tree to the
new instance and mutates it via `set`. -/
theorem C1_counterexample :
    (Configuration.merge (.vObj []) (.vObj [("key", .vStr "value")])
        (some "nested") .MERGE_INDEXED).map (fun x => x.2.1) ≠
      some (.vObj []) := by
  have heval : (Configuration.merge (.vObj []) (.vObj [("key", .vStr "value")])
      (some "nested") .MERGE_INDEXED).map (fun x => x.2.1) =
      some (.vObj [("nested", .vObj [("key", .vStr "value")])]) := by
    simp [Configuration.merge, mergeObjectsV, mergeObjects, mergeLoop,
      mergeEntry, getField, setField, jsEntries, splitDots, splitAux,
      Configuration.getSegs, Configuration.setSegs, propWrite, propRead,
      typeofIsObject]
  rw [heval]
  simp

/-- C1 (amended): with a null key path, `merge` returns a fresh
Configuration and leaves both inputs unchanged; with a non-null key
path, the argument is left unchanged but the receiver's tree after the
call is the very tree of the returned Configuration (the merged tree),
not its prior value. -/
theorem C1_amended (fa fb : List (String × Value)) (s : MergeStrategy) :
    Configuration.merge (.vObj fa) (.vObj fb) none s =
      some (mergeObjectsV (.vObj fa) (.vObj fb) s, .vObj fa, .vObj fb) ∧
    ∀ p : String,
      (Configuration.merge (.vObj fa) (.vObj fb) (some p) s).map (fun x => x.2.1) =
        (Configuration.merge (.vObj fa) (.vObj fb) (some p) s).map (fun x => x.1) ∧
      (Configuration.merge (.vObj fa) (.vObj fb) (some p) s).map (fun x => x.2.2) =
        (Configuration.merge (.vObj fa) (.vObj fb) (some p) s).map
          (fun _ => .vObj fb) := by
  refine ⟨rfl, fun p => ?_⟩
  cases hm : Configuration.merge (.vObj fa) (.vObj fb) (some p) s with
  | none => simp
  | some x =>
    obtain ⟨r, a', b'⟩ := x
    obtain ⟨ha, hb⟩ := merge_some_inv hm
    simp [ha, hb]

/-- C2 (counterexample): `set` can fail.  On the tree `{a: null}` the
path `"a.b"` descends into `null` (`typeof null === "object"`), and the
assignment `null["b"] = v` throws a `TypeError` — `set` is not
"never fails", and a `null` slot is not overwritten with `{}`. -/
theorem C2_counterexample :
    Configuration.set (.vObj [("a", .vNull)]) "a.b" (.vStr "v") = none := rfl

/-- C2 (amended): when no non-final slot of the path holds `null` or a
sequence (each such slot is a mapping, absent, or a non-null scalar),
`set` succeeds: non-mapping slots are overwritten with a fresh empty
mapping, and afterwards `get` of the same path returns the assigned
value. -/
theorem C2_amended (T : Value) (p : String) (v d : Value)
    (h : setSafe T (splitDots p) = true) :
    ∃ r, Configuration.set T p v = some r ∧
      Configuration.get r p d = some v :=
  setSegs_getSegs (splitDots p) T v d h

/-- C2 (witness): writing through an existing scalar (`{a: "x"}`,
path `"a.b"`) overwrites the scalar with a mapping and reads back. -/
theorem C2_amended_witness :
    setSafe (.vObj [("a", .vStr "x")]) (splitDots "a.b") = true ∧
    ∃ r, Configuration.set (.vObj [("a", .vStr "x")]) "a.b" (.vStr "v") = some r ∧
      Configuration.get r "a.b" .vNull = some (.vStr "v") :=
  ⟨by decide, C2_amended (.vObj [("a", .vStr "x")]) "a.b" (.vStr "v") .vNull (by decide)⟩

/-- C3 (counterexample): `has`/`get` can throw.  On `{key: null}` with
path `"key.nested"` the walk reaches `null` with a segment remaining;
`typeof null === "object"` passes the guard and `"nested" in null`
throws a `TypeError` in both operations. -/
theorem C3_counterexample :
    Configuration.has (.vObj [("key", .vNull)]) "key.nested" = none ∧
    Configuration.get (.vObj [("key", .vNull)]) "key.nested" .vNull = none :=
  ⟨rfl, rfl⟩

/-- C3 (amended): on every path that does not fully resolve and never
lands on `null` with segments remaining, `has` returns `false` and `get`
returns the default, without throwing. -/
theorem C3_amended (T : Value) (p : String) (d : Value)
    (hmiss : Configuration.has T p ≠ some true)
    (hnf : nullFreeOnPath T (splitDots p) = true) :
    Configuration.has T p = some false ∧ Configuration.get T p d = some d := by
  unfold Configuration.has at hmiss
  unfold Configuration.has Configuration.get
  have hsome := hasSegs_isSome_of_nullFree (splitDots p) T hnf
  cases hh : hasSegs T (splitDots p) with
  | none => rw [hh] at hsome; simp at hsome
  | some b =>
    cases b with
    | true => exact absurd hh hmiss
    | false => exact ⟨rfl, getSegs_default_of_hasSegs_false _ _ d hh⟩

/-- C3 (witness): the spec's own example — `{key: "value"}` with path
`"key.nested.key"` — gives `has = false` and `get` the default. -/
theorem C3_amended_witness :
    Configuration.has (.vObj [("key", .vStr "value")]) "key.nested.key" =
      some false ∧
    Configuration.get (.vObj [("key", .vStr "value")]) "key.nested.key" .vNull =
      some .vNull :=
  C3_amended (.vObj [("key", .vStr "value")]) "key.nested.key" .vNull
    (by decide) (by decide)

/-- C4 (counterexample): `remove` can throw.  On `{a: null}` with path
`"a.b"` the guard `typeof null === "object"` lets the walk descend into
`null`, and `delete null["b"]` throws a `TypeError` instead of being a
silent no-op. -/
theorem C4_counterexample :
    Configuration.remove (.vObj [("a", .vNull)]) "a.b" = none := rfl

/-- C4 (amended): whenever some non-final slot of the path fails the
`typeof` guard with a non-object value, `remove` is a silent no-op (tree
returned unchanged); and after any `remove` call that returns at all
(deletion or no-op), `has` of the same path is `false`.  (Descending
into `null` instead throws, as the counterexample shows.) -/
theorem C4_amended (T : Value) (p : String) :
    (∀ T', Configuration.remove T p = some T' →
      Configuration.has T' p = some false) ∧
    (removeBroken T (splitDots p) = true →
      Configuration.remove T p = some T) := by
  constructor
  · intro T' h
    exact hasSegs_false_of_removeSegs (splitDots p) T T' h
  · intro h
    exact removeSegs_noop_of_broken (splitDots p) T h

/-- C4 (witness): removing `"nested.key"` from `{nested: {key: "value"}}`
deletes it (`has` is then `false`), and removing it from
`{key: "value"}` is a silent no-op. -/
theorem C4_amended_witness :
    Configuration.has (.vObj [("nested", .vObj [])]) "nested.key" = some false ∧
    Configuration.remove (.vObj [("key", .vStr "value")]) "nested.key" =
      some (.vObj [("key", .vStr "value")]) :=
  ⟨(C4_amended (.vObj [("nested", .vObj [("key", .vStr "value")])])
      "nested.key").1 (.vObj [("nested", .vObj [])]) (by rfl),
   (C4_amended (.vObj [("key", .vStr "value")]) "nested.key").2 (by decide)⟩

/-- C5: merging two mappings whose common key holds sequences of scalar
values yields, under MERGE_INDEXED, the order-preserving de-duplicated
union of the two sequences (first occurrences of the concatenation of
`a`'s then `b`'s elements), and under REPLACE_INDEXED `b`'s sequence
unchanged. -/
theorem C5_array_strategies (a b : List (String × Value)) (k : String)
    (xs ys : List Value) (hnd : keysNodup b)
    (ha : getField a k = some (.vArr xs)) (hb : getField b k = some (.vArr ys))
    (hprim : ∀ w ∈ xs ++ ys, w.isPrimitiveB = true) :
    getField (mergeObjects a b .MERGE_INDEXED) k =
      some (.vArr (setDedup (xs ++ ys))) ∧
    getField (mergeObjects a b .REPLACE_INDEXED) k = some (.vArr ys) ∧
    (setDedup (xs ++ ys)).Sublist (xs ++ ys) ∧
    (∀ w, w ∈ setDedup (xs ++ ys) ↔ w ∈ xs ++ ys) ∧
    (setDedup (xs ++ ys)).Nodup := by
  have hmerge := getField_mergeLoop_of_some b .MERGE_INDEXED a a hnd hb
  have hreplace := getField_mergeLoop_of_some b .REPLACE_INDEXED a a hnd hb
  rw [ha] at hmerge hreplace
  refine ⟨?_, ?_, setDedupAux_sublist (xs ++ ys) [], ?_, ?_⟩
  · simpa [mergeObjects, isArrayB, arrayUnion, setDedup] using hmerge
  · simpa [mergeObjects, isArrayB] using hreplace
  · intro w
    unfold setDedup
    rw [mem_setDedupAux (xs ++ ys) [] w hprim]
    simp
  · exact nodup_setDedupAux (xs ++ ys) [] hprim

/-- C5 (witness): the spec's example — `["one","two","three"]` merged
with `["two","three","four"]` gives `["one","two","three","four"]` under
MERGE_INDEXED and `["two","three","four"]` under REPLACE_INDEXED. -/
theorem C5_array_strategies_witness :
    getField (mergeObjects
        [("list", .vArr [.vStr "one", .vStr "two", .vStr "three"])]
        [("list", .vArr [.vStr "two", .vStr "three", .vStr "four"])]
        .MERGE_INDEXED) "list" =
      some (.vArr [.vStr "one", .vStr "two", .vStr "three", .vStr "four"]) ∧
    getField (mergeObjects
        [("list", .vArr [.vStr "one", .vStr "two", .vStr "three"])]
        [("list", .vArr [.vStr "two", .vStr "three", .vStr "four"])]
        .REPLACE_INDEXED) "list" =
      some (.vArr [.vStr "two", .vStr "three", .vStr "four"]) := by
  have h := C5_array_strategies
    [("list", .vArr [.vStr "one", .vStr "two", .vStr "three"])]
    [("list", .vArr [.vStr "two", .vStr "three", .vStr "four"])]
    "list" [.vStr "one", .vStr "two", .vStr "three"]
    [.vStr "two", .vStr "three", .vStr "four"]
    (by decide) (by rfl) (by rfl) (by decide)
  refine ⟨?_, h.2.1⟩
  rw [h.1]
  rfl

/-- C6 (counterexample): with MERGE_INDEXED, two colliding sequences do
not resolve to `b`'s value: `{k: [1]}` merged with `{k: [2]}` yields
`{k: [1, 2]}`, not `{k: [2]}` — so "on any other conflict b's value
fully replaces a's" is false as stated. -/
theorem C6_counterexample :
    getField (mergeObjects [("k", .vArr [.vNum 1])] [("k", .vArr [.vNum 2])]
        .MERGE_INDEXED) "k" = some (.vArr [.vNum 1, .vNum 2]) ∧
    Value.vArr [.vNum 1, .vNum 2] ≠ .vArr [.vNum 2] := by
  constructor
  · simp [mergeObjects, mergeLoop, mergeEntry, getField, setField, arrayUnion,
      setDedup, setDedupAux, svzEq, isObject, isArrayB]
  · simp

/-- C6 (amended): for well-formed mappings, `mergeObjects` keeps keys
present only in `a`, copies keys present only in `b`, recursively merges
keys whose values are mappings in both, and on any other conflict takes
`b`'s value — except that under MERGE_INDEXED two colliding sequences
combine into their de-duplicated concatenation rather than being
replaced.  (Purity is inherent in this value-level model: the inputs are
untouched and the result is a fresh list.) -/
theorem C6_amended (a b : List (String × Value)) (s : MergeStrategy)
    (hnda : keysNodup a) (hndb : keysNodup b) (k : String) :
    (getField b k = none → getField (mergeObjects a b s) k = getField a k) ∧
    (getField a k = none → ∀ v, getField b k = some v →
      getField (mergeObjects a b s) k = some v) ∧
    (∀ fa fb, getField a k = some (.vObj fa) → getField b k = some (.vObj fb) →
      getField (mergeObjects a b s) k = some (.vObj (mergeObjects fa fb s))) ∧
    (∀ xs ys, getField a k = some (.vArr xs) → getField b k = some (.vArr ys) →
      getField (mergeObjects a b .MERGE_INDEXED) k =
        some (.vArr (setDedup (xs ++ ys)))) ∧
    (∀ va vb, getField a k = some va → getField b k = some vb →
      ¬(va.isObject = true ∧ vb.isObject = true) →
      ¬(s = .MERGE_INDEXED ∧ va.isArrayB = true ∧ vb.isArrayB = true) →
      getField (mergeObjects a b s) k = some vb) := by
  refine ⟨?_, ?_, ?_, ?_, ?_⟩
  · intro hb
    exact getField_mergeLoop_of_none b s a a hb
  · intro ha v hb
    have h := getField_mergeLoop_of_some b s a a hndb hb
    rw [ha] at h
    simpa [mergeObjects] using h
  · intro fa fb ha hb
    have h := getField_mergeLoop_of_some b s a a hndb hb
    rw [ha] at h
    simpa [mergeObjects, isObject, objFieldsD] using h
  · intro xs ys ha hb
    have h := getField_mergeLoop_of_some b .MERGE_INDEXED a a hndb hb
    rw [ha] at h
    simpa [mergeObjects, isArrayB, arrayUnion, setDedup] using h
  · intro va vb ha hb hnotobj hnotarr
    have h := getField_mergeLoop_of_some b s a a hndb hb
    rw [ha] at h
    cases vb with
    | vObj fb =>
      have hva : va.isObject = false := by
        cases hcva : va.isObject
        · rfl
        · exact absurd ⟨hcva, rfl⟩ hnotobj
      simpa [mergeObjects, hva] using h
    | vArr ys =>
      have hcond : ¬(s = .MERGE_INDEXED ∧ va.isArrayB = true) := by
        rintro ⟨hs, hva⟩
        exact hnotarr ⟨hs, hva, rfl⟩
      simpa [mergeObjects, hcond] using h
    | vUndefined => simpa [mergeObjects] using h
    | vNull => simpa [mergeObjects] using h
    | vBool bb => simpa [mergeObjects] using h
    | vNum n => simpa [mergeObjects] using h
    | vStr str => simpa [mergeObjects] using h

/-- C6 (witness): scalar conflict — `{x: 1}` merged with `{x: 2}` gives
`b`'s value `2`. -/
theorem C6_amended_witness :
    getField (mergeObjects [("x", .vNum 1)] [("x", .vNum 2)]
      .MERGE_INDEXED) "x" = some (.vNum 2) :=
  (C6_amended [("x", .vNum 1)] [("x", .vNum 2)] .MERGE_INDEXED
      (by decide) (by decide) "x").2.2.2.2 (.vNum 1) (.vNum 2)
    (by rfl) (by rfl) (by simp [isObject]) (by simp [isArrayB])

/-- C7: merging at a non-null key path computes
`mergeObjects(this.get(keyPath, {}), other.all(), strategy)` and writes
it into a copy-by-reference of `this`'s tree at the key path via `set`;
every top-level key other than the path's first segment — in particular
sibling keys at intermediate levels — keeps its value from `this`'s
tree. -/
theorem C7_merge_at_key_path (fa fb : List (String × Value)) (p : String)
    (s : MergeStrategy) (r a' b' : Value)
    (h : Configuration.merge (.vObj fa) (.vObj fb) (some p) s =
      some (r, a', b')) :
    (∃ base,
      getSegs (.vObj fa) (splitDots p) (.vObj []) = some base ∧
      setSegs (.vObj fa) (splitDots p) (mergeObjectsV base (.vObj fb) s) =
        some r) ∧
    ∃ fr, r = .vObj fr ∧
      ∀ k, k ≠ (splitDots p).headD "" → getField fr k = getField fa k := by
  obtain ⟨base, hbase, hset⟩ := merge_result_eq h
  refine ⟨⟨base, hbase, hset⟩, ?_⟩
  cases hsegs : splitDots p with
  | nil => exact absurd hsegs (splitDots_ne_nil p)
  | cons k tl =>
    rw [hsegs] at hset
    obtain ⟨u, hu⟩ := setSegs_obj_shape hset
    refine ⟨setField fa k u, hu, ?_⟩
    intro k' hk'
    simp only [List.headD_cons] at hk'
    exact getField_setField_ne fa (fun e => hk' e.symm) u

/-- C7 (witness): the repository's own test — `{key: "value"}` merged
with `{otherKey: "other value"}` at `"nested.section"` yields
`{key: "value", nested: {section: {otherKey: "other value"}}}`, with the
sibling key `"key"` preserved. -/
theorem C7_merge_at_key_path_witness :
    (∃ base,
      getSegs (.vObj [("key", .vStr "value")]) (splitDots "nested.section")
        (.vObj []) = some base ∧
      setSegs (.vObj [("key", .vStr "value")]) (splitDots "nested.section")
        (mergeObjectsV base (.vObj [("otherKey", .vStr "other value")])
          .MERGE_INDEXED) =
        some (.vObj [("key", .vStr "value"),
          ("nested", .vObj [("section",
            .vObj [("otherKey", .vStr "other value")])])])) ∧
    ∃ fr, (Value.vObj [("key", .vStr "value"),
        ("nested", .vObj [("section",
          .vObj [("otherKey", .vStr "other value")])])]) = .vObj fr ∧
      ∀ k, k ≠ (splitDots "nested.section").headD "" →
        getField fr k = getField [("key", .vStr "value")] k :=
  C7_merge_at_key_path [("key", .vStr "value")]
    [("otherKey", .vStr "other value")] "nested.section" .MERGE_INDEXED
    (.vObj [("key", .vStr "value"),
      ("nested", .vObj [("section", .vObj [("otherKey", .vStr "other value")])])])
    (.vObj [("key", .vStr "value"),
      ("nested", .vObj [("section", .vObj [("otherKey", .vStr "other value")])])])
    (.vObj [("otherKey", .vStr "other value")])
    (by simp [Configuration.merge, mergeObjectsV, mergeObjects, mergeLoop,
      mergeEntry, getField, setField, jsEntries, splitDots, splitAux,
      Configuration.getSegs, Configuration.setSegs, propWrite, propRead,
      typeofIsObject])

/-- C8: `build` folds the loaded settings in registration order — the
`Promise.all` fan-in reorders arbitrary completion orders back to
registration order, and the fold starts from an empty Configuration, so
with zero sources the result's `all()` is the empty mapping. -/
theorem C8_build_registration_fold (regs : List Registration)
    (arrivals : List (Nat × Registration)) (s : MergeStrategy)
    (hperm : arrivals.Perm (withIndex regs)) :
    build arrivals regs.length s =
      regs.foldl (buildStep s) (some (.vObj [])) ∧
    build [] 0 s = some (.vObj []) := by
  constructor
  · unfold build buildFold
    rw [promiseAllByIndex_of_perm hperm]
  · rfl

/-- C8 (witness): two sources whose loads complete in reverse order are
still merged in registration order. -/
theorem C8_build_registration_fold_witness :
    build [(1, (.vObj [("b", .vNum 2)], none)), (0, (.vObj [("a", .vNum 1)], none))]
      2 .MERGE_INDEXED = some (.vObj [("a", .vNum 1), ("b", .vNum 2)]) := by
  have h := (C8_build_registration_fold
    [(.vObj [("a", .vNum 1)], none), (.vObj [("b", .vNum 2)], none)]
    [(1, (.vObj [("b", .vNum 2)], none)), (0, (.vObj [("a", .vNum 1)], none))]
    .MERGE_INDEXED
    (List.Perm.swap ((0, (Value.vObj [("a", Value.vNum 1)], none)) : Nat × Registration)
      (1, (Value.vObj [("b", Value.vNum 2)], none)) [])).1
  have h2 : ([(.vObj [("a", .vNum 1)], none),
      (.vObj [("b", .vNum 2)], none)] : List Registration).length = 2 := rfl
  rw [h2] at h
  rw [h]
  simp [buildStep, Configuration.merge, mergeObjectsV, mergeObjects,
    mergeLoop, mergeEntry, jsEntries, getField, setField]

/-- C9: when a path segment resolves to a sequence, `has` and `get`
descend into it with the next segment as an index: with a non-empty
sequence at `"list"`, `has("list.0")` is `true` and `get("list.0")` is
the first element. -/
theorem C9_sequences_indexed (f : List (String × Value)) (x : Value)
    (xs : List Value) (d : Value)
    (hf : getField f "list" = some (.vArr (x :: xs)))
    (hx : x.isUndefB = false) :
    Configuration.has (.vObj f) "list.0" = some true ∧
    Configuration.get (.vObj f) "list.0" d = some x := by
  have hsplit : splitDots "list.0" = ["list", "0"] := rfl
  have hidx : toArrayIndex "0" = some 0 := rfl
  unfold Configuration.has Configuration.get
  rw [hsplit]
  constructor
  · simp [hasSegs, hf, inOpArr, hidx, hx, readArr]
  · simp [getSegs, hf, inOpArr, hidx, hx, readArr]

/-- C9 (witness): `{list: ["one", "two"]}` — `has("list.0")` is `true`
and `get("list.0")` is `"one"`. -/
theorem C9_sequences_indexed_witness :
    Configuration.has (.vObj [("list", .vArr [.vStr "one", .vStr "two"])])
      "list.0" = some true ∧
    Configuration.get (.vObj [("list", .vArr [.vStr "one", .vStr "two"])])
      "list.0" .vNull = some (.vStr "one") :=
  C9_sequences_indexed [("list", .vArr [.vStr "one", .vStr "two"])]
    (.vStr "one") [.vStr "two"] .vNull (by rfl) (by rfl)

/-- C10: the empty mapping is an identity for `mergeObjects` on
well-formed mappings, on both sides (as association lists, so in
particular up to structural equality). -/
theorem C10_empty_merge_identity (a : List (String × Value))
    (s : MergeStrategy) (hnd : keysNodup a) :
    mergeObjects a [] s = a ∧ mergeObjects [] a s = a := by
  constructor
  · rw [mergeObjects, mergeLoop]
  · rw [mergeObjects]
    have h := mergeLoop_all_new a s [] [] hnd (fun k _ => rfl)
    simpa using h

/-- C10 (witness): identity on a two-key mapping holding a scalar and a
sequence. -/
theorem C10_empty_merge_identity_witness :
    mergeObjects [("key", .vStr "value"), ("list", .vArr [.vNum 1])] []
      .MERGE_INDEXED = [("key", .vStr "value"), ("list", .vArr [.vNum 1])] ∧
    mergeObjects [] [("key", .vStr "value"), ("list", .vArr [.vNum 1])]
      .MERGE_INDEXED = [("key", .vStr "value"), ("list", .vArr [.vNum 1])] :=
  C10_empty_merge_identity [("key", .vStr "value"), ("list", .vArr [.vNum 1])]
    .MERGE_INDEXED (by decide)

end Claims

end Apollo
